import Mathlib

/-!
Shallow embedding of the crypto-misuse detection core:
`baselines/rule_based.py` (the ten-signature rule engine),
`preprocessing/normalizer.py` (comment stripping, whitespace collapsing,
identifier anonymization) and `preprocessing/parser.py` (feature extraction).

Snippets are embedded as `List Char`.  The Python regexes are embedded as
executable matchers over `List Char`.  Every regex occurring in the source
is deterministic after the standard backtracking analysis (each greedy
`\s*`, `\s+`, `[^X]*`, `\w*`, `\d{0,2}` run is followed by a character that
cannot belong to the run, so only the maximal run can lead to a match);
where genuine nondeterminism exists (the `[^)]*` in the PBE rule and the
`[^\"]*` in the ECB / NoPadding rules) the matcher searches all split
points explicitly.  `re.IGNORECASE` patterns are embedded by lowercasing
the input character-wise and writing the pattern letters in lower case,
which coincides with Python's case-insensitive matching on these patterns.
Character classes (`\s`, `\d`, `\w`) are embedded at their Python meaning,
restricted to the character sets the source can encounter (ASCII plus the
common Unicode whitespace for `\s`).
-/

/-- Convert a string literal to the snippet representation. -/
def str (s : String) : List Char := s.data

/-- Python `str.lower` restricted to ASCII letters (character-wise). -/
def pyLower (c : Char) : Char :=
  if 'A' ≤ c ∧ c ≤ 'Z' then Char.ofNat (c.toNat + 32) else c

/-- Python `str.upper` restricted to ASCII letters (character-wise). -/
def pyUpper (c : Char) : Char :=
  if 'a' ≤ c ∧ c ≤ 'z' then Char.ofNat (c.toNat - 32) else c

/-- The individual Python whitespace characters (besides the
`\u2000`-`\u200a` block). -/
def pyWsChars : List Char :=
  [' ', '\t', '\n', '\r', '\x0b', '\x0c', '\x1c', '\x1d', '\x1e', '\x1f',
   '\x85', '\xa0', '\u1680', '\u2028', '\u2029', '\u202f', '\u205f', '\u3000']

/-- Python whitespace: the set matched by regex `\s` and stripped by
`str.strip()` (ASCII whitespace plus the common Unicode space characters). -/
def isPyWs (c : Char) : Bool :=
  pyWsChars.contains c || (decide ('\u2000' ≤ c) && decide (c ≤ '\u200a'))

/-- Regex `\d` (ASCII digits). -/
def isAsciiDigit (c : Char) : Bool := decide ('0' ≤ c) && decide (c ≤ '9')

/-- Regex `\w` (ASCII word characters). -/
def isWordChar (c : Char) : Bool :=
  (decide ('a' ≤ c) && decide (c ≤ 'z')) || (decide ('A' ≤ c) && decide (c ≤ 'Z')) ||
  isAsciiDigit c || c == '_'

/-- Prefix test (equivalent to `List.isPrefixOf`, defined here so that it
reduces by iota on a symbolic tail). -/
def prefMatch : List Char → List Char → Bool
  | [], _ => true
  | _ :: _, [] => false
  | p :: ps, c :: cs => (p == c) && prefMatch ps cs

/-- Match a literal pattern fragment at the head of the input, returning the
rest of the input on success. -/
def litP (pat s : List Char) : Option (List Char) :=
  if prefMatch pat s then some (s.drop pat.length) else none

/-- Regex `\s*`: consume the (maximal) whitespace run. -/
def wsStar (s : List Char) : List Char := s.dropWhile isPyWs

/-- Regex `\s+`: at least one whitespace character, then the maximal run. -/
def wsPlus : List Char → Option (List Char)
  | [] => none
  | c :: cs => if isPyWs c then some (cs.dropWhile isPyWs) else none

/-- Regex search: does the matcher succeed at some start position?
(`re.search` tries every start position in the input.) -/
def searchB (m : List Char → Bool) : List Char → Bool
  | [] => m []
  | c :: cs => m (c :: cs) || searchB m cs

/-- Embeds `[^\"]*KW[^\"]*\"` (the inside of the quoted algorithm string of
the ECB / NoPadding rules): some split of the input into a run of
non-quote characters, then `KW`, then non-quote characters up to a
closing quote.  After `KW`, a closing quote is reachable through
non-quote characters iff the rest contains a quote at all. -/
def quoteBodyHas (kw : List Char) : List Char → Bool
  | [] => false
  | c :: cs =>
      (prefMatch kw (c :: cs) && ((c :: cs).drop kw.length).contains '"')
      || (if c = '"' then false else quoteBodyHas kw cs)

/-- Rule 1 matcher at a fixed position (input already lowercased):
`cipher\.getinstance\s*\(\s*\"[^\"]*ecb[^\"]*\"`. -/
def matchEcbAt (s : List Char) : Bool :=
  match litP (str ("cipher.getinstance")) s with
  | none => false
  | some s1 =>
    match litP (str ("(")) (wsStar s1) with
    | none => false
    | some s2 =>
      match litP (str ("\"")) (wsStar s2) with
      | none => false
      | some s3 => quoteBodyHas (str ("ecb")) s3

/-- Rule 2 matcher (lowercased input):
`messagedigest\.getinstance\s*\(\s*\"md5\"\s*\)`. -/
def matchMd5At (s : List Char) : Bool :=
  (do
    let s1 ← litP (str ("messagedigest.getinstance")) s
    let s2 ← litP (str ("(")) (wsStar s1)
    let s3 ← litP (str ("\"md5\"")) (wsStar s2)
    litP (str (")")) (wsStar s3)).isSome

/-- Rule 3 matcher (lowercased input):
`messagedigest\.getinstance\s*\(\s*\"sha-?1\"\s*\)`.  The optional dash is
deterministic: either the next character is a dash (consume it) or it must
already be the `1`. -/
def matchSha1At (s : List Char) : Bool :=
  (do
    let s1 ← litP (str ("messagedigest.getinstance")) s
    let s2 ← litP (str ("(")) (wsStar s1)
    let s3 ← litP (str ("\"sha")) (wsStar s2)
    let s4 := match s3 with
              | '-' :: cs => cs
              | other => other
    let s5 ← litP (str ("1\"")) s4
    litP (str (")")) (wsStar s5)).isSome

/-- Rule 4 matcher (lowercased input):
`new\s+secretkeyspec\s*\(\s*new\s+byte\s*\[\s*\]\s*\x7b`. -/
def matchHardcodedKeyAt (s : List Char) : Bool :=
  (do
    let s1 ← litP (str ("new")) s
    let s2 ← wsPlus s1
    let s3 ← litP (str ("secretkeyspec")) s2
    let s4 ← litP (str ("(")) (wsStar s3)
    let s5 ← litP (str ("new")) (wsStar s4)
    let s6 ← wsPlus s5
    let s7 ← litP (str ("byte")) s6
    let s8 ← litP (str ("[")) (wsStar s7)
    let s9 ← litP (str ("]")) (wsStar s8)
    litP (str ("\x7b")) (wsStar s9)).isSome

/-- Rule 5 matcher (lowercased input):
`new\s+secretkeyspec\s*\(\s*\"[^\"]+\"\.getbytes`. -/
def matchHardcodedKeyStringAt (s : List Char) : Bool :=
  (do
    let s1 ← litP (str ("new")) s
    let s2 ← wsPlus s1
    let s3 ← litP (str ("secretkeyspec")) s2
    let s4 ← litP (str ("(")) (wsStar s3)
    let s5 ← litP (str ("\"")) (wsStar s4)
    let body := s5.takeWhile (fun c => c ≠ '"')
    let s6 := s5.dropWhile (fun c => c ≠ '"')
    if body.isEmpty then none else litP (str ("\".getbytes")) s6).isSome

/-- Rule 6 matcher (lowercased input):
`new\s+ivparameterspec\s*\(\s*new\s+byte\s*\[\s*\]\s*\x7b`. -/
def matchStaticIvAt (s : List Char) : Bool :=
  (do
    let s1 ← litP (str ("new")) s
    let s2 ← wsPlus s1
    let s3 ← litP (str ("ivparameterspec")) s2
    let s4 ← litP (str ("(")) (wsStar s3)
    let s5 ← litP (str ("new")) (wsStar s4)
    let s6 ← wsPlus s5
    let s7 ← litP (str ("byte")) s6
    let s8 ← litP (str ("[")) (wsStar s7)
    let s9 ← litP (str ("]")) (wsStar s8)
    litP (str ("\x7b")) (wsStar s9)).isSome

/-- Rule 7 matcher (lowercased input): `new\s+random\s*\(`. -/
def matchInsecureRandomAt (s : List Char) : Bool :=
  (do
    let s1 ← litP (str ("new")) s
    let s2 ← wsPlus s1
    let s3 ← litP (str ("random")) s2
    litP (str ("(")) (wsStar s3)).isSome

/-- Rule 8 matcher (lowercased input):
`cipher\.getinstance\s*\(\s*\"des[^e]` — one further character that is not
`e` (under IGNORECASE the class `[^e]` excludes both `e` and `E`; on the
lowercased input this is exactly `≠ 'e'`). -/
def matchDesAt (s : List Char) : Bool :=
  match (do
    let s1 ← litP (str ("cipher.getinstance")) s
    let s2 ← litP (str ("(")) (wsStar s1)
    litP (str ("\"des")) (wsStar s2)) with
  | some (c :: _) => c ≠ 'e'
  | _ => false

/-- Rule 9 matcher (lowercased input):
`cipher\.getinstance\s*\(\s*\"[^\"]*nopadding[^\"]*\"`. -/
def matchNoPaddingAt (s : List Char) : Bool :=
  match (do
    let s1 ← litP (str ("cipher.getinstance")) s
    let s2 ← litP (str ("(")) (wsStar s1)
    litP (str ("\"")) (wsStar s2)) with
  | some s3 => quoteBodyHas (str ("nopadding")) s3
  | none => false

/-- Tail of rule 10: `,\s*[1-9]\d{0,2}\s*[,)]`.  The digit run is forced to
be maximal (a shorter choice of `\d{0,2}` leaves a digit next, which fits
neither `\s*` nor `[,)]`), so the pattern matches iff the full digit run
after the comma has length 1–3, starts with a nonzero digit, and is
followed (after optional whitespace) by `,` or `)`. -/
def pbeNumTail : List Char → Bool
  | ',' :: cs =>
      let r1 := cs.dropWhile isPyWs
      let ds := r1.takeWhile isAsciiDigit
      let r2 := r1.dropWhile isAsciiDigit
      (match ds with
       | d :: _ => decide ('1' ≤ d) && decide (d ≤ '9') && decide (ds.length ≤ 3)
       | [] => false)
      &&
      (match r2.dropWhile isPyWs with
       | ')' :: _ => true
       | ',' :: _ => true
       | _ => false)
  | _ => false

/-- Body of rule 10 after the opening parenthesis: `[^)]*` followed by
`pbeNumTail`, searching every split point (the run of non-`)` characters
may stop anywhere before the first `)`). -/
def pbeInner : List Char → Bool
  | [] => false
  | c :: cs => pbeNumTail (c :: cs) || (if c = ')' then false else pbeInner cs)

/-- Rule 10 matcher at a fixed position (raw, case-sensitive input):
`PBEKeySpec\s*\([^)]*,\s*(?:[1-9]\d{0,2})\s*[,)]`. -/
def matchPbeAt (s : List Char) : Bool :=
  match litP (str ("PBEKeySpec")) s with
  | none => false
  | some s1 =>
      match s1.dropWhile isPyWs with
      | '(' :: r => pbeInner r
      | _ => false

/-- Rule `ecb_mode` of `_RULES` (IGNORECASE). -/
def ecb_mode (code : List Char) : Bool := searchB matchEcbAt (code.map pyLower)

/-- Rule `md5_hash` of `_RULES` (IGNORECASE). -/
def md5_hash (code : List Char) : Bool := searchB matchMd5At (code.map pyLower)

/-- Rule `sha1_hash` of `_RULES` (IGNORECASE). -/
def sha1_hash (code : List Char) : Bool := searchB matchSha1At (code.map pyLower)

/-- Rule `hardcoded_key` of `_RULES` (IGNORECASE). -/
def hardcoded_key (code : List Char) : Bool :=
  searchB matchHardcodedKeyAt (code.map pyLower)

/-- Rule `hardcoded_key_string` of `_RULES` (IGNORECASE). -/
def hardcoded_key_string (code : List Char) : Bool :=
  searchB matchHardcodedKeyStringAt (code.map pyLower)

/-- Rule `static_iv` of `_RULES` (IGNORECASE). -/
def static_iv (code : List Char) : Bool := searchB matchStaticIvAt (code.map pyLower)

/-- Rule `insecure_random` of `_RULES` (IGNORECASE). -/
def insecure_random (code : List Char) : Bool :=
  searchB matchInsecureRandomAt (code.map pyLower)

/-- Rule `des_usage` of `_RULES` (IGNORECASE). -/
def des_usage (code : List Char) : Bool := searchB matchDesAt (code.map pyLower)

/-- Rule `no_padding` of `_RULES` (IGNORECASE). -/
def no_padding (code : List Char) : Bool := searchB matchNoPaddingAt (code.map pyLower)

/-- Rule `low_pbe_iterations` of `_RULES` (no IGNORECASE flag in the source:
evaluated on the raw text). -/
def low_pbe_iterations (code : List Char) : Bool := searchB matchPbeAt code

/-- The registered rule list of `rule_based.py`, in registration order. -/
def _RULES : List (String × (List Char → Bool)) :=
  [ ("ecb_mode", ecb_mode),
    ("md5_hash", md5_hash),
    ("sha1_hash", sha1_hash),
    ("hardcoded_key", hardcoded_key),
    ("hardcoded_key_string", hardcoded_key_string),
    ("static_iv", static_iv),
    ("insecure_random", insecure_random),
    ("des_usage", des_usage),
    ("no_padding", no_padding),
    ("low_pbe_iterations", low_pbe_iterations) ]

/-- The short-circuiting loop of `predict`: return "insecure" on the first
matching rule, "secure" if no rule matches. -/
def predictGo : List (String × (List Char → Bool)) → List Char → String
  | [], _ => ("secure")
  | (_, p) :: rs, code => if p code then ("insecure") else predictGo rs code

/-- `predict` of `rule_based.py`. -/
def predict (code : List Char) : String := predictGo _RULES code

/-- Result record of `predict_detailed`. -/
structure DetailedVerdict where
  label : String
  triggered_rules : List String
deriving DecidableEq, Repr

/-- `predict_detailed` of `rule_based.py`: collect every matching rule's
name in registration order; the label is "insecure" iff the list is
non-empty. -/
def predict_detailed (code : List Char) : DetailedVerdict :=
  let triggered := (_RULES.filter (fun r => r.2 code)).map (fun r => r.1)
  { label := if triggered.isEmpty then ("secure") else ("insecure"),
    triggered_rules := triggered }

/-! ### `preprocessing/normalizer.py` -/

/-- The block-comment pass of `_remove_comments`:
`re.sub(r"/\*.*?\*/", "", code, flags=re.DOTALL)`.  The scan is
left-to-right; a match starts at a `/*` and, because `.*?` is lazy, ends at
the first following `*/`.  When a `/*` has no following `*/` there is no
match starting at it (the pending characters are kept), and the scan
continues one character later.  The second argument is the mode: `none`
outside any candidate comment; `some buf` inside one, with `buf` holding
the pending characters in reverse (starting with the `/*`) so that they
can be emitted unchanged if the end of input is reached with no `*/`. -/
def goBlockF : List Char → Option (List Char) → List Char
  | [], none => []
  | [], some buf => buf.reverse
  | [c], none => [c]
  | [c], some buf => (c :: buf).reverse
  | c :: d :: cs, none =>
      if c = '/' ∧ d = '*' then goBlockF cs (some ['*', '/'])
      else c :: goBlockF (d :: cs) none
  | c :: d :: cs, some buf =>
      if c = '*' ∧ d = '/' then goBlockF cs none
      else goBlockF (d :: cs) (some (c :: buf))

/-- The block-comment pass, started outside any comment. -/
def goBlock (s : List Char) : List Char := goBlockF s none

/-- The line-comment pass of `_remove_comments`:
`re.sub(r"//[^\n]*", "", code)` — from each `//` up to (not including) the
next newline.  The Bool is the mode: `true` while dropping a comment body. -/
def goLineF : Bool → List Char → List Char
  | _, [] => []
  | true, c :: cs => if c = '\n' then c :: goLineF false cs else goLineF true cs
  | false, '/' :: '/' :: cs => goLineF true cs
  | false, c :: cs => c :: goLineF false cs

/-- The line-comment pass. -/
def goLine (s : List Char) : List Char := goLineF false s

/-- `_remove_comments` of `normalizer.py`: block comments first, then line
comments. -/
def _remove_comments (code : List Char) : List Char := goLine (goBlock code)

/-- `code.replace("\t", " ")` — character-wise tab replacement. -/
def replaceTabs (s : List Char) : List Char :=
  s.map (fun c => if c = '\t' then ' ' else c)

/-- `re.sub(r" {2,}", " ", code)`: every maximal run of two or more spaces
becomes a single space (a run of one is left alone, which coincides with
keeping the first space of any run and dropping the rest).  The Bool is
`true` while inside a space run whose first space has been emitted. -/
def collapseF : Bool → List Char → List Char
  | _, [] => []
  | inRun, c :: cs =>
      if c = ' ' then
        if inRun then collapseF true cs else ' ' :: collapseF true cs
      else c :: collapseF false cs

/-- The space-collapsing pass. -/
def collapseSpaces (s : List Char) : List Char := collapseF false s

/-- The line boundaries recognized by Python `str.splitlines`. -/
def isLineBreakCh (c : Char) : Bool :=
  c == '\n' || c == '\r' || c == '\x0b' || c == '\x0c' ||
  c == '\x1c' || c == '\x1d' || c == '\x1e' || c == '\x85' ||
  c == '\u2028' || c == '\u2029'

/-- Prepend a character to the first line of a line list (used to build
`splitlines` results right-to-left). -/
def consHead (c : Char) : List (List Char) → List (List Char)
  | [] => [[c]]
  | l :: ls => (c :: l) :: ls

/-- Python `str.splitlines()`: split at line boundaries (with `\r\n`
counting as a single boundary); boundaries are not kept, and a trailing
boundary does not produce an extra empty line. -/
def splitLines : List Char → List (List Char)
  | [] => []
  | [c] => if isLineBreakCh c then [[]] else [[c]]
  | c :: d :: cs =>
      if c = '\r' ∧ d = '\n' then [] :: splitLines cs
      else if isLineBreakCh c then [] :: splitLines (d :: cs)
      else consHead c (splitLines (d :: cs))

/-- Python `line.strip()`: drop leading and trailing whitespace. -/
def stripLine (l : List Char) : List Char :=
  ((l.dropWhile isPyWs).reverse.dropWhile isPyWs).reverse

/-- Python `"\n".join(lines)`. -/
def joinLines : List (List Char) → List Char
  | [] => []
  | [l] => l
  | l :: ls => l ++ '\n' :: joinLines ls

/-- `_normalize_whitespace` of `normalizer.py`: replace tabs by spaces,
collapse space runs, then keep the stripped non-blank lines joined by
newlines (`[line.strip() for line in code.splitlines() if line.strip()]`). -/
def _normalize_whitespace (code : List Char) : List Char :=
  joinLines
    (((splitLines (collapseSpaces (replaceTabs code))).map stripLine).filter
      (fun l => !l.isEmpty))

/-- The protected identifier set of `_normalize_variables` (never renamed;
membership is exact, case-sensitive). -/
def _protected : List (List Char) :=
  [str ("args"), str ("main"), str ("this"), str ("super"), str ("null"),
   str ("true"), str ("false"), str ("System"), str ("out"), str ("println"),
   str ("String"), str ("Integer"), str ("key")]

/-- The type-keyword alternatives of the declaration pattern
`\b(?:int|long|byte|short|float|double|boolean|char|String|byte\[\]|char\[\]|Object|var)`
in their source order. -/
def varTypeKeywords : List (List Char) :=
  [str ("int"), str ("long"), str ("byte"), str ("short"), str ("float"),
   str ("double"), str ("boolean"), str ("char"), str ("String"),
   str ("byte[]"), str ("char[]"), str ("Object"), str ("var")]

/-- Case-insensitive prefix test (the declaration pattern carries
`re.IGNORECASE`). -/
def icPrefix : List Char → List Char → Bool
  | [], _ => true
  | _ :: _, [] => false
  | p :: ps, c :: cs => (pyLower p == pyLower c) && icPrefix ps cs

/-- Case-insensitive literal fragment matcher. -/
def litCIP (pat s : List Char) : Option (List Char) :=
  if icPrefix pat s then some (s.drop pat.length) else none

/-- Continuation of the declaration pattern after a type keyword:
`\s+([a-z_]\w*)\s*[=;,)]` (IGNORECASE, so the name may start with a letter
of either case or an underscore).  Returns the captured name (in original
case) and the rest after the whole match.  All runs are deterministic: the
name run is maximal (a shorter run leaves a word character where `\s*` or
`[=;,)]` is required). -/
def varDeclTail (s : List Char) : Option (List Char × List Char) :=
  match wsPlus s with
  | none => none
  | some s1 =>
    match s1 with
    | [] => none
    | c :: cs =>
      if (decide ('a' ≤ pyLower c) && decide (pyLower c ≤ 'z')) || c = '_' then
        let name := c :: cs.takeWhile isWordChar
        match wsStar (cs.dropWhile isWordChar) with
        | d :: ds =>
            if d = '=' ∨ d = ';' ∨ d = ',' ∨ d = ')' then some (name, ds) else none
        | [] => none
      else none

/-- Try the type-keyword alternatives in order; an alternative whose
continuation fails backtracks to the next alternative. -/
def tryVarKws : List (List Char) → List Char → Option (List Char × List Char)
  | [], _ => none
  | kw :: kws, s =>
      match litCIP kw s with
      | some rest =>
          (match varDeclTail rest with
           | some r => some r
           | none => tryVarKws kws s)
      | none => tryVarKws kws s

/-- The full declaration pattern at one position.  The leading `\b` holds
iff the previous character is not a word character (every alternative
starts with a word character). -/
def matchVarDeclAt (prevWord : Bool) (s : List Char) :
    Option (List Char × List Char) :=
  if prevWord then none else tryVarKws varTypeKeywords s

/-- `finditer` scan of the declaration pattern: left-to-right,
non-overlapping, resuming after each match.  `fuel` bounds the number of
steps; each step consumes at least one character, so `code.length + 1` is
always sufficient.  After a match the previous character is the terminator
`[=;,)]`, which is not a word character. -/
def varScan : Nat → Bool → List Char → List (List Char)
  | 0, _, _ => []
  | _, _, [] => []
  | Nat.succ f, prevWord, c :: cs =>
      match matchVarDeclAt prevWord (c :: cs) with
      | some (name, rest) => name :: varScan f false rest
      | none => varScan f (isWordChar c) cs

/-- All captured declaration names of a snippet, in match order. -/
def varMatches (code : List Char) : List (List Char) :=
  varScan (code.length + 1) false code

/-- The collection loop of `_normalize_variables`: first-seen order,
skipping protected names and duplicates. -/
def collectGo : List (List Char) → List (List Char) → List (List Char)
  | acc, [] => acc
  | acc, n :: ns =>
      if n ∈ _protected ∨ n ∈ acc then collectGo acc ns
      else collectGo (acc ++ [n]) ns

/-- The `var_names` list collected by `_normalize_variables`. -/
def collectVarNames (code : List Char) : List (List Char) :=
  collectGo [] (varMatches code)

/-- Word-boundary test after a match: end of input or a non-word
character. -/
def boundaryAfter : List Char → Bool
  | [] => true
  | d :: _ => !isWordChar d

/-- `re.sub(rf"\b{name}\b", repl, code)` for a name made of word
characters: replace every whole-word occurrence, scanning the original
text left-to-right and resuming after each match.  `fuel` as in
`varScan`. -/
def subWord (name repl : List Char) : Nat → Bool → List Char → List Char
  | 0, _, s => s
  | _, _, [] => []
  | Nat.succ f, prevWord, c :: cs =>
      if ¬prevWord ∧ prefMatch name (c :: cs) = true ∧
         boundaryAfter ((c :: cs).drop name.length) then
        repl ++ subWord name repl f true ((c :: cs).drop name.length)
      else c :: subWord name repl f (isWordChar c) cs

/-- One whole-word substitution pass over a snippet. -/
def subWordAll (name repl s : List Char) : List Char :=
  subWord name repl (s.length + 1) false s

/-- Decimal digits of a replacement index. -/
def natDigits (n : Nat) : List Char := Nat.toDigits 10 n

/-- The replacement loop of `_normalize_variables`: the i-th collected name
(0-based) is replaced by `VARi`, sequentially. -/
def varReplaceGo : Nat → List (List Char) → List Char → List Char
  | _, [], code => code
  | idx, n :: ns, code =>
      varReplaceGo (idx + 1) ns (subWordAll n (str ("VAR") ++ natDigits idx) code)

/-- `_normalize_variables` of `normalizer.py`. -/
def _normalize_variables (code : List Char) : List Char :=
  varReplaceGo 0 (collectVarNames code) code

namespace normalizer

/-- `normalize` of `normalizer.py` (flags in source order: comments →
whitespace → variables).  (Namespaced because Mathlib already has a
`normalize`.) -/
def normalize (code : List Char) (remove_comments : Bool)
    (normalize_whitespace : Bool) (normalize_variables : Bool) : List Char :=
  let c1 := if remove_comments then _remove_comments code else code
  let c2 := if normalize_whitespace then _normalize_whitespace c1 else c1
  if normalize_variables then _normalize_variables c2 else c2

end normalizer

/-! ### `preprocessing/parser.py` -/

/-- The literal heads of `_API_CALL_PATTERNS` (each pattern is the literal
followed by `\s*\(`; no IGNORECASE flag, so matching is case-sensitive). -/
def _API_CALL_PATTERNS : List (List Char) :=
  [str ("Cipher.getInstance"), str ("MessageDigest.getInstance"),
   str ("SecretKeySpec"), str ("KeyGenerator.getInstance"),
   str ("SecureRandom"), str ("KeyPairGenerator.getInstance"),
   str ("Mac.getInstance"), str ("Signature.getInstance"),
   str ("KeyStore.getInstance"), str ("PBEKeySpec"), str ("PBEParameterSpec"),
   str ("IvParameterSpec"), str ("GCMParameterSpec"),
   str ("TrustManagerFactory.getInstance"), str ("SSLContext.getInstance")]

/-- Match one API-call pattern `LIT\s*\(` at a position, returning the
matched text and the rest. -/
def matchApiAt (lit s : List Char) : Option (List Char × List Char) :=
  match litP lit s with
  | none => none
  | some r =>
      match r.dropWhile isPyWs with
      | '(' :: rest => some (lit ++ r.takeWhile isPyWs ++ [ '(' ], rest)
      | _ => none

/-- `re.findall` driver: scan left-to-right, collecting non-overlapping
matches and resuming after each match.  `fuel` bounds the number of steps;
every matcher used here consumes at least one character on success, so
`s.length + 1` is always sufficient. -/
def findallGo (m : List Char → Option (List Char × List Char)) :
    Nat → List Char → List (List Char)
  | 0, _ => []
  | _, [] => []
  | Nat.succ f, c :: cs =>
      match m (c :: cs) with
      | some (t, rest) => t :: findallGo m f rest
      | none => findallGo m f cs

/-- `re.findall pattern s` for a pattern embedded as a matcher. -/
def findall (m : List Char → Option (List Char × List Char))
    (s : List Char) : List (List Char) :=
  findallGo m (s.length + 1) s

/-- `_extract_api_calls` of `parser.py`: the matches of each pattern, in
pattern order. -/
def _extract_api_calls (code : List Char) : List (List Char) :=
  (_API_CALL_PATTERNS.map (fun p => findall (matchApiAt p) code)).flatten

/-- `_CRYPTO_KEYWORDS` of `parser.py`, in source order. -/
def _CRYPTO_KEYWORDS : List (List Char) :=
  [str ("AES"), str ("DES"), str ("DESede"), str ("3DES"), str ("Blowfish"),
   str ("RC4"), str ("RC2"), str ("ChaCha20"),
   str ("ECB"), str ("CBC"), str ("CTR"), str ("GCM"), str ("OFB"), str ("CFB"),
   str ("PKCS5Padding"), str ("NoPadding"), str ("PKCS7Padding"),
   str ("MD5"), str ("SHA-1"), str ("SHA1"), str ("SHA-256"), str ("SHA-512"),
   str ("SHA256"), str ("SHA512"),
   str ("RSA"), str ("DSA"), str ("ECDSA"), str ("ECDH"),
   str ("PBKDF2"), str ("PBEWith"), str ("HmacSHA"),
   str ("SecureRandom"), str ("java.util.Random"),
   str ("TLS"), str ("SSL"), str ("TLSv1"), str ("TLSv1.2"), str ("TLSv1.3")]

/-- Python substring containment `pat in s`: some suffix of `s` starts with
`pat`. -/
def containsSub (s pat : List Char) : Bool :=
  searchB (fun t => prefMatch pat t) s

/-- `_extract_crypto_keywords` of `parser.py`:
`[kw for kw in _CRYPTO_KEYWORDS if kw.upper() in code.upper()]`. -/
def _extract_crypto_keywords (code : List Char) : List (List Char) :=
  _CRYPTO_KEYWORDS.filter (fun kw => containsSub (code.map pyUpper) (kw.map pyUpper))

/-- Match `^\s*import\s+` at a line start (re.MULTILINE `^`).  Deterministic
(`\s*` is followed by the non-whitespace `i`, `\s+` is maximal).  Returns
the last consumed character (to know whether the scan resumes at a line
start) and the rest. -/
def matchImportAt (s : List Char) : Option (Char × List Char) :=
  match litP (str ("import")) (s.dropWhile isPyWs) with
  | none => none
  | some r2 =>
      match r2.takeWhile isPyWs with
      | [] => none
      | w => some (w.getLastD ' ', r2.dropWhile isPyWs)

/-- Count of `re.findall(r"^\s*import\s+", code, re.MULTILINE)`:
left-to-right non-overlapping scan; `^` matches at position 0 and right
after each `\n`. -/
def importScanGo : Nat → Bool → List Char → Nat
  | 0, _, _ => 0
  | _, _, [] => 0
  | Nat.succ f, atLineStart, c :: cs =>
      if atLineStart then
        match matchImportAt (c :: cs) with
        | some (last, rest) => 1 + importScanGo f (last == '\n') rest
        | none => importScanGo f (c == '\n') cs
      else importScanGo f (c == '\n') cs

/-- Tail of the type-declaration pattern after a keyword: `\s+\w+`. -/
def classTail (r : List Char) : Option (List Char) :=
  match wsPlus r with
  | none => none
  | some r2 =>
      match r2 with
      | c :: cs => if isWordChar c then some (cs.dropWhile isWordChar) else none
      | [] => none

/-- Try `class` / `interface` / `enum` in order, with backtracking into the
next alternative when the continuation fails. -/
def tryClassKw : List (List Char) → List Char → Option (List Char)
  | [], _ => none
  | kw :: kws, s =>
      match litP kw s with
      | some r =>
          (match classTail r with
           | some rest => some rest
           | none => tryClassKw kws s)
      | none => tryClassKw kws s

/-- Count of `re.findall(r"\b(?:class|interface|enum)\s+\w+", code)`.  The
leading `\b` holds iff the previous character is not a word character. -/
def classScanGo : Nat → Bool → List Char → Nat
  | 0, _, _ => 0
  | _, _, [] => 0
  | Nat.succ f, prevWord, c :: cs =>
      match (if prevWord then none
             else tryClassKw [str ("class"), str ("interface"), str ("enum")] (c :: cs)) with
      | some rest => 1 + classScanGo f true rest
      | none => classScanGo f (isWordChar c) cs

/-- Characters of the class `[\w<>\[\]]` in the method-signature pattern. -/
def isMethodTypeChar (c : Char) : Bool :=
  isWordChar c || c == '<' || c == '>' || c == '[' || c == ']'

/-- One item of the modifier group `(?:public|private|protected|static|\s)`.
At any position at most one item can match (the keywords are mutually
non-prefix and none starts with whitespace), so the item choice is
forced. -/
def methodItem (s : List Char) : Option (List Char) :=
  match litP (str ("public")) s with
  | some r => some r
  | none =>
    match litP (str ("private")) s with
    | some r => some r
    | none =>
      match litP (str ("protected")) s with
      | some r => some r
      | none =>
        match litP (str ("static")) s with
        | some r => some r
        | none =>
          match s with
          | c :: cs => if isPyWs c then some cs else none
          | [] => none

/-- Tail of the method-signature pattern: `[\w<>\[\]]+\s+\w+\s*\(`
(each greedy run is forced maximal). -/
def methodTail (s : List Char) : Option (List Char) :=
  match s.takeWhile isMethodTypeChar with
  | [] => none
  | _ =>
    match wsPlus (s.dropWhile isMethodTypeChar) with
    | none => none
    | some r2 =>
      match r2 with
      | c :: cs =>
          if isWordChar c then
            (match wsStar (cs.dropWhile isWordChar) with
             | '(' :: rest => some rest
             | _ => none)
          else none
      | [] => none

/-- Greedy continuation of the modifier group after at least one item has
been consumed: prefer consuming a further item; if that whole branch
fails, match the tail here. -/
def methodGroupGo : Nat → List Char → Option (List Char)
  | 0, _ => none
  | Nat.succ f, s =>
      match methodItem s with
      | some r =>
          (match methodGroupGo f r with
           | some rest => some rest
           | none => methodTail s)
      | none => methodTail s

/-- The method-signature pattern
`(?:public|private|protected|static|\s)+[\w<>\[\]]+\s+\w+\s*\(` at one
position.  Each group item consumes at least one character, so
`s.length + 1` fuel bounds the group depth. -/
def matchMethodAt (s : List Char) : Option (List Char) :=
  match methodItem s with
  | none => none
  | some r => methodGroupGo (s.length + 1) r

/-- Count of the method-signature matches (non-overlapping scan). -/
def methodScanGo : Nat → List Char → Nat
  | 0, _ => 0
  | _, [] => 0
  | Nat.succ f, c :: cs =>
      match matchMethodAt (c :: cs) with
      | some rest => 1 + methodScanGo f rest
      | none => methodScanGo f cs

/-- The structural-count record of `_extract_structural_tokens`. -/
structure StructuralTokens where
  import_count : Nat
  class_count : Nat
  method_count : Nat
deriving DecidableEq, Repr

/-- `_extract_structural_tokens` of `parser.py`. -/
def _extract_structural_tokens (code : List Char) : StructuralTokens :=
  { import_count := importScanGo (code.length + 1) true code,
    class_count := classScanGo (code.length + 1) false code,
    method_count := methodScanGo (code.length + 1) code }

/-- Characters of the class `[A-Za-z0-9/+=]` (hardcoded-key string
pattern). -/
def isB64Char (c : Char) : Bool :=
  (decide ('A' ≤ c) && decide (c ≤ 'Z')) || (decide ('a' ≤ c) && decide (c ≤ 'z')) ||
  isAsciiDigit c || c == '/' || c == '+' || c == '='

/-- Characters of the class `[0-9a-fA-F]` (hex-string pattern). -/
def isHexChar (c : Char) : Bool :=
  isAsciiDigit c || (decide ('a' ≤ c) && decide (c ≤ 'f')) ||
  (decide ('A' ≤ c) && decide (c ≤ 'F'))

/-- Hardcoded pattern 1, `new\s+byte\s*\[\s*\]\s*\x7b[^\x7d]+\x7d`, at one
position; returns the matched text (via consumed length) and the rest.
The brace body run is forced maximal and must be followed by the closing
brace. -/
def matchByteArrAt (s : List Char) : Option (List Char × List Char) :=
  match (do
    let r1 ← litP (str ("new")) s
    let r2 ← wsPlus r1
    let r3 ← litP (str ("byte")) r2
    let r4 ← litP (str ("[")) (wsStar r3)
    let r5 ← litP (str ("]")) (wsStar r4)
    let r6 ← litP (str ("\x7b")) (wsStar r5)
    let body := r6.takeWhile (fun c => c ≠ '\x7d')
    if body.isEmpty then none
    else litP (str ("\x7d")) (r6.dropWhile (fun c => c ≠ '\x7d'))) with
  | some rest => some (s.take (s.length - rest.length), rest)
  | none => none

/-- Hardcoded pattern 2, `\"[A-Za-z0-9/+=]{8,}\"\.getBytes`, at one
position. -/
def matchKeyStrAt (s : List Char) : Option (List Char × List Char) :=
  match (do
    let r1 ← litP (str ("\"")) s
    let body := r1.takeWhile isB64Char
    if body.length < 8 then none
    else do
      let r2 ← litP (str ("\"")) (r1.dropWhile isB64Char)
      litP (str (".getBytes")) r2) with
  | some rest => some (s.take (s.length - rest.length), rest)
  | none => none

/-- Hardcoded pattern 3, `\"[0-9a-fA-F]{16,}\"`, at one position. -/
def matchHexStrAt (s : List Char) : Option (List Char × List Char) :=
  match (do
    let r1 ← litP (str ("\"")) s
    let body := r1.takeWhile isHexChar
    if body.length < 16 then none
    else litP (str ("\"")) (r1.dropWhile isHexChar)) with
  | some rest => some (s.take (s.length - rest.length), rest)
  | none => none

/-- `_extract_hardcoded_secrets` of `parser.py`: the matches of the three
patterns, in pattern order. -/
def _extract_hardcoded_secrets (code : List Char) : List (List Char) :=
  findall matchByteArrAt code ++ findall matchKeyStrAt code ++
    findall matchHexStrAt code

/-- The feature record returned by `extract_features` (a Lean structure:
all four fields are always present by construction). -/
structure FeatureRecord where
  api_calls : List (List Char)
  crypto_keywords : List (List Char)
  structural_tokens : StructuralTokens
  hardcoded_secrets : List (List Char)
deriving DecidableEq, Repr

/-- `extract_features` of `parser.py`. -/
def extract_features (code : List Char) : FeatureRecord :=
  { api_calls := _extract_api_calls code,
    crypto_keywords := _extract_crypto_keywords code,
    structural_tokens := _extract_structural_tokens code,
    hardcoded_secrets := _extract_hardcoded_secrets code }

/-! ### Auxiliary notions used in theorem statements -/

/-- Two snippets are letter-case variants of each other (equal after
character-wise lowercasing). -/
def lowerEq (s t : List Char) : Prop := s.map pyLower = t.map pyLower

/-- The adjacency relation "not two spaces in a row". -/
def noTwoSpaces (l : List Char) : Prop :=
  List.Chain' (fun a b => ¬(a = ' ' ∧ b = ' ')) l

/-- Declarative characterization of what the `low_pbe_iterations` regex
`PBEKeySpec\s*\([^)]*,\s*(?:[1-9]\d{0,2})\s*[,)]` accepts, stated as a
decomposition of the input rather than as a scanner: the text contains an
occurrence of `PBEKeySpec`, optional whitespace, `(`, then a (possibly
empty) run of characters none of which is `)`, a comma, optional
whitespace, a 1–3-digit token with nonzero leading digit, optional
whitespace, and a comma or closing parenthesis. -/
def LowPbeSpec (s : List Char) : Prop :=
  ∃ (u w g w1 d w2 : List Char) (c : Char) (v : List Char),
    s = u ++ str ("PBEKeySpec") ++ w ++ [ '(' ] ++ g ++ [ ',' ] ++
        w1 ++ d ++ w2 ++ [c] ++ v ∧
    (∀ x ∈ w, isPyWs x = true) ∧
    (∀ x ∈ g, x ≠ ')') ∧
    (∀ x ∈ w1, isPyWs x = true) ∧
    d ≠ [] ∧ d.length ≤ 3 ∧ (∀ x ∈ d, isAsciiDigit x = true) ∧
    (∀ x ∈ d.head?, '1' ≤ x ∧ x ≤ '9') ∧
    (∀ x ∈ w2, isPyWs x = true) ∧
    (c = ',' ∨ c = ')')

/-! ### Generic helper lemmas -/

/-- A search succeeds iff the matcher succeeds on some suffix. -/
theorem searchB_iff (m : List Char → Bool) (s : List Char) :
    searchB m s = true ↔ ∃ u v, s = u ++ v ∧ m v = true := by
  induction s with
  | nil =>
      simp only [searchB]
      constructor
      · intro h; exact ⟨[], [], rfl, h⟩
      · rintro ⟨u, v, huv, hv⟩
        obtain ⟨rfl, rfl⟩ := List.append_eq_nil.mp huv.symm
        exact hv
  | cons c cs ih =>
      simp only [searchB, Bool.or_eq_true, ih]
      constructor
      · rintro (h | ⟨u, v, rfl, hv⟩)
        · exact ⟨[], c :: cs, rfl, h⟩
        · exact ⟨c :: u, v, rfl, hv⟩
      · rintro ⟨u, v, huv, hv⟩
        cases u with
        | nil => exact Or.inl (huv ▸ hv)
        | cons a u =>
            rw [List.cons_append] at huv
            injection huv with h1 h2
            subst h1
            exact Or.inr ⟨u, v, h2, hv⟩

/-- Searching an extended text succeeds whenever searching a suffix does. -/
theorem searchB_append_left (m : List Char → Bool) (a b : List Char)
    (h : searchB m b = true) : searchB m (a ++ b) = true := by
  induction a with
  | nil => exact h
  | cons c cs ih =>
      have hstep : searchB m ((c :: cs) ++ b) =
          (m ((c :: cs) ++ b) || searchB m (cs ++ b)) := rfl
      rw [hstep, ih, Bool.or_true]

/-- A search succeeds if the matcher succeeds at the start. -/
theorem searchB_head (m : List Char → Bool) (s : List Char)
    (h : m s = true) : searchB m s = true := by
  cases s with
  | nil => exact h
  | cons c cs => simp only [searchB, h, Bool.true_or]

/-- `dropWhile` skips a block that satisfies the predicate. -/
theorem dropWhile_all_append (p : Char → Bool) (a b : List Char)
    (ha : ∀ x ∈ a, p x = true) : (a ++ b).dropWhile p = b.dropWhile p := by
  induction a with
  | nil => rfl
  | cons c cs ih =>
      have hc : p c = true := ha c (List.mem_cons_self c cs)
      simp only [List.cons_append, List.dropWhile_cons, hc, if_true]
      exact ih (fun x hx => ha x (List.mem_cons_of_mem c hx))

/-- `dropWhile` stops at a head that fails the predicate. -/
theorem dropWhile_head_false (p : Char → Bool) (b : List Char)
    (hb : ∀ x ∈ b.head?, p x = false) : b.dropWhile p = b := by
  cases b with
  | nil => rfl
  | cons c cs =>
      have : p c = false := hb c rfl
      simp [List.dropWhile_cons, this]

/-- `takeWhile` takes a whole block that satisfies the predicate. -/
theorem takeWhile_all_append (p : Char → Bool) (a b : List Char)
    (ha : ∀ x ∈ a, p x = true) : (a ++ b).takeWhile p = a ++ b.takeWhile p := by
  induction a with
  | nil => rfl
  | cons c cs ih =>
      have hc : p c = true := ha c (List.mem_cons_self c cs)
      simp only [List.cons_append, List.takeWhile_cons, hc, if_true]
      rw [ih (fun x hx => ha x (List.mem_cons_of_mem c hx))]

/-- `takeWhile` is empty at a head that fails the predicate. -/
theorem takeWhile_head_false (p : Char → Bool) (b : List Char)
    (hb : ∀ x ∈ b.head?, p x = false) : b.takeWhile p = [] := by
  cases b with
  | nil => rfl
  | cons c cs =>
      have : p c = false := hb c rfl
      simp [List.takeWhile_cons, this]

/-- Characters taken by `takeWhile` satisfy the predicate. -/
theorem mem_takeWhile_sat (p : Char → Bool) (l : List Char) :
    ∀ x ∈ l.takeWhile p, p x = true := by
  induction l with
  | nil => simp
  | cons c cs ih =>
      by_cases hc : p c
      · simp only [List.takeWhile_cons, hc, if_true, List.mem_cons]
        rintro x (rfl | hx)
        · exact hc
        · exact ih x hx
      · simp [List.takeWhile_cons, hc]

/-! ### C1: `predict` agrees with `predict_detailed` -/

/-- The short-circuiting loop returns "insecure" iff some rule matches. -/
theorem predictGo_insecure_iff (rs : List (String × (List Char → Bool)))
    (code : List Char) :
    predictGo rs code = ("insecure") ↔ ∃ r ∈ rs, r.2 code = true := by
  induction rs with
  | nil =>
      simp only [predictGo]
      constructor
      · intro h; exact absurd h (by decide)
      · rintro ⟨r, hr, -⟩; exact absurd hr (List.not_mem_nil r)
  | cons r rs ih =>
      obtain ⟨n, p⟩ := r
      by_cases h : p code = true
      · constructor
        · intro _; exact ⟨(n, p), List.mem_cons_self _ _, h⟩
        · intro _; simp [predictGo, h]
      · have hstep : predictGo ((n, p) :: rs) code = predictGo rs code := by
          simp [predictGo, h]
        rw [hstep, ih]
        constructor
        · rintro ⟨q, hq, hqc⟩; exact ⟨q, List.mem_cons_of_mem _ hq, hqc⟩
        · rintro ⟨q, hq, hqc⟩
          rcases List.mem_cons.mp hq with rfl | hq2
          · exact absurd hqc (by simpa using h)
          · exact ⟨q, hq2, hqc⟩

/-- The short-circuiting loop only ever returns the two labels. -/
theorem predictGo_cases (rs : List (String × (List Char → Bool)))
    (code : List Char) :
    predictGo rs code = ("insecure") ∨ predictGo rs code = ("secure") := by
  induction rs with
  | nil => exact Or.inr rfl
  | cons r rs ih =>
      obtain ⟨n, p⟩ := r
      by_cases h : p code <;> simp [predictGo, h, ih]

/-- C1: for every input, `predict` returns "insecure" iff
`predict_detailed` reports a non-empty `triggered_rules` list
(equivalently, iff at least one of the ten registered rules matches), and
the label of `predict_detailed` always equals the label of `predict`:
the short-circuiting and the exhaustive evaluation always agree. -/
theorem predict_iff_predict_detailed (code : List Char) :
    (predict code = ("insecure") ↔ (predict_detailed code).triggered_rules ≠ []) ∧
    (predict code = ("insecure") ↔ ∃ r ∈ _RULES, r.2 code = true) ∧
    (predict_detailed code).label = predict code := by
  have h1 : predict code = ("insecure") ↔ ∃ r ∈ _RULES, r.2 code = true :=
    predictGo_insecure_iff _RULES code
  have h2 : (predict_detailed code).triggered_rules ≠ [] ↔
      ∃ r ∈ _RULES, r.2 code = true := by
    simp only [predict_detailed, ne_eq, List.map_eq_nil_iff, List.filter_eq_nil_iff]
    push_neg
    constructor
    · rintro ⟨r, hr, hrc⟩
      exact ⟨r, hr, by simpa using hrc⟩
    · rintro ⟨r, hr, hrc⟩
      exact ⟨r, hr, by simpa using hrc⟩
  refine ⟨h1.trans h2.symm, h1, ?_⟩
  by_cases h : ∃ r ∈ _RULES, r.2 code = true
  · have hp : predict code = ("insecure") := h1.mpr h
    have ht : ((_RULES.filter (fun r => r.2 code)).map (fun r => r.1)) ≠ [] :=
      h2.mpr h
    simp only [predict_detailed, hp, List.isEmpty_iff]
    rw [if_neg ht]
  · have hp : predict code ≠ ("insecure") := fun hc => h (h1.mp hc)
    have hps : predict code = ("secure") :=
      (predictGo_cases _RULES code).resolve_left hp
    have ht : ((_RULES.filter (fun r => r.2 code)).map (fun r => r.1)) = [] := by
      by_contra hne
      exact h (h2.mp hne)
    simp only [predict_detailed, hps, List.isEmpty_iff]
    rw [if_pos ht]

/-! ### C8: empty-string behavior -/

/-- C8: on the empty string, `predict` returns "secure" and
`extract_features` returns a record with all four fields present and
empty: no API calls, no crypto keywords, zero structural counts, and no
hardcoded secrets.  (In this embedding `extract_features` is a total
function into a structure, so the four fields exist on every input by
construction, and no input can raise.) -/
theorem predict_extract_features_empty :
    predict (str ("")) = ("secure") ∧
    extract_features (str ("")) =
      FeatureRecord.mk [] [] (StructuralTokens.mk 0 0 0) [] := by
  constructor <;> decide

/-! ### C6: case sensitivity of the rules -/

/-- C6: the first nine rules (compiled with IGNORECASE) give the same
verdict on any two letter-case variants of an input, while the tenth rule
`low_pbe_iterations` (compiled without flags) is case-sensitive: it
matches `PBEKeySpec(pw, 99)` but not its lower-cased variant
`pbekeyspec(pw, 99)`. -/
theorem rules_case_sensitivity (s t : List Char) (h : lowerEq s t) :
    (ecb_mode s = ecb_mode t ∧ md5_hash s = md5_hash t ∧
     sha1_hash s = sha1_hash t ∧ hardcoded_key s = hardcoded_key t ∧
     hardcoded_key_string s = hardcoded_key_string t ∧
     static_iv s = static_iv t ∧ insecure_random s = insecure_random t ∧
     des_usage s = des_usage t ∧ no_padding s = no_padding t) ∧
    (low_pbe_iterations (str ("PBEKeySpec(pw, 99)")) = true ∧
     low_pbe_iterations (str ("pbekeyspec(pw, 99)")) = false ∧
     lowerEq (str ("PBEKeySpec(pw, 99)")) (str ("pbekeyspec(pw, 99)"))) := by
  unfold lowerEq at h
  refine ⟨⟨?_, ?_, ?_, ?_, ?_, ?_, ?_, ?_, ?_⟩,
    by decide, by decide, by unfold lowerEq; decide⟩
  all_goals simp only [ecb_mode, md5_hash, sha1_hash, hardcoded_key,
    hardcoded_key_string, static_iv, insecure_random, des_usage, no_padding, h]

/-- Witness for the case-sensitivity theorem at a concrete pair of
case variants. -/
theorem rules_case_sensitivity_witness :
    ecb_mode (str ("Cipher.getInstance(\"AES/ECB/X\")")) =
      ecb_mode (str ("cipher.getinstance(\"aes/ecb/x\")")) :=
  (rules_case_sensitivity _ _ (by unfold lowerEq; decide)).1.1

/-! ### C5: the DES rule and longer algorithm names -/

/-- C5 counterexample: `DESX` is an algorithm name that merely starts with
"DES" as a longer word, yet `des_usage` triggers on
`Cipher.getInstance("DESX")` — the rule only excludes a following
`e`/`E`, not every longer word. -/
theorem des_usage_desx_counterexample :
    des_usage (str ("Cipher.getInstance(\"DESX\")")) = true := by decide

/-- C5 amended: `des_usage` triggers on DES cipher instantiations (with or
without mode string), never on any letter-casing of a DESede
instantiation (the trailing-character class `[^e]` rejects exactly `e`
and `E`), but a longer algorithm name continuing with any other
character, such as `DESX`, does trigger it. -/
theorem des_usage_amended (s : List Char)
    (h : lowerEq s (str ("Cipher.getInstance(\"DESede/CBC/PKCS5Padding\")"))) :
    des_usage (str ("Cipher.getInstance(\"DES/CBC/PKCS5Padding\")")) = true ∧
    des_usage (str ("Cipher.getInstance(\"DES\")")) = true ∧
    des_usage s = false ∧
    des_usage (str ("Cipher.getInstance(\"DESX\")")) = true := by
  refine ⟨by decide, by decide, ?_, by decide⟩
  unfold lowerEq at h
  unfold des_usage
  rw [h]
  decide

/-- Witness: a mixed-case DESede instantiation does not trigger
`des_usage`. -/
theorem des_usage_amended_witness :
    des_usage (str ("cipher.getINSTANCE(\"DESede/CBC/pkcs5padding\")")) = false :=
  (des_usage_amended _ (by unfold lowerEq; decide)).2.2.1

/-! ### C4: identifier anonymization and protected / class / method names -/

/-- C4 counterexample: the input declares a local `int run = 1;` and also
has a method named `run`.  The claim says a method name is never renamed,
but whole-word substitution replaces the method-name occurrence too. -/
theorem normalize_variables_method_rename_counterexample :
    _normalize_variables (str ("int run = 1;\nvoid run() \x7b\x7d")) =
      str ("int VAR0 = 1;\nvoid VAR0() \x7b\x7d") := by decide

/-- The collection loop never adds a protected name. -/
theorem collectGo_not_protected (ms : List (List Char)) :
    ∀ (acc : List (List Char)), (∀ x ∈ acc, x ∉ _protected) →
    ∀ n ∈ collectGo acc ms, n ∉ _protected := by
  induction ms with
  | nil => intro acc hacc n hn; exact hacc n (by simpa [collectGo] using hn)
  | cons m ms ih =>
      intro acc hacc n hn
      rw [show collectGo acc (m :: ms) =
        (if m ∈ _protected ∨ m ∈ acc then collectGo acc ms
         else collectGo (acc ++ [m]) ms) from rfl] at hn
      by_cases hm : m ∈ _protected ∨ m ∈ acc
      · rw [if_pos hm] at hn
        exact ih acc hacc n hn
      · rw [if_neg hm] at hn
        push_neg at hm
        refine ih (acc ++ [m]) ?_ n hn
        intro x hx
        rcases List.mem_append.mp hx with hx | hx
        · exact hacc x hx
        · rw [List.mem_singleton.mp hx]
          exact hm.1

/-- C4 amended: no name in the protected set is ever collected for
renaming (hence the substitution patterns of `_normalize_variables` never
target a protected identifier); by contrast — see the counterexample — a
class or method name that coincides with a collected local-variable name
IS renamed, since whole-word substitution applies across the whole
snippet. -/
theorem collectVarNames_not_protected (code n : List Char)
    (h : n ∈ collectVarNames code) : n ∉ _protected :=
  collectGo_not_protected (varMatches code) [] (by simp) n h

/-- Witness: `run` is collected from `int run = 1;` and is not
protected. -/
theorem collectVarNames_not_protected_witness :
    (str ("run")) ∈ collectVarNames (str ("int run = 1;")) ∧
    (str ("run")) ∉ _protected :=
  ⟨by decide, collectVarNames_not_protected (str ("int run = 1;"))
      (str ("run")) (by decide)⟩

/-! ### C2: unterminated block comments -/

/-- C2 counterexample: on an input with an unterminated block comment the
claim says everything from `/*` to the end of text is removed (which
would give `"int a = 1; "`), but `_remove_comments` leaves the input
unchanged: the non-greedy block regex needs a closing `*/` to match at
all. -/
theorem remove_comments_unterminated_counterexample :
    _remove_comments (str ("int a = 1; /* oops")) = str ("int a = 1; /* oops") ∧
    str ("int a = 1; /* oops") ≠ str ("int a = 1; ") := by
  constructor <;> decide

/-- Peeling one character off a failed substring search. -/
theorem containsSub_cons_false {x : Char} {xs pat : List Char}
    (h : containsSub (x :: xs) pat = false) :
    containsSub xs pat = false ∧ prefMatch pat (x :: xs) = false := by
  have hb : (prefMatch pat (x :: xs) || searchB (fun t => prefMatch pat t) xs)
      = false := h
  exact ⟨(Bool.or_eq_false_iff.mp hb).2, (Bool.or_eq_false_iff.mp hb).1⟩

/-- Without any `*/` in the input, the block-comment pass is the
identity, in either mode. -/
theorem goBlockF_no_closer (s : List Char) (mode : Option (List Char))
    (h : containsSub s (str ("*/")) = false) :
    goBlockF s mode = (match mode with
                       | none => s
                       | some buf => buf.reverse ++ s) := by
  induction s, mode using goBlockF.induct with
  | case1 => rfl
  | case2 buf => simp [goBlockF]
  | case3 c => rfl
  | case4 c buf => simp [goBlockF]
  | case5 c d cs hcd ih =>
      obtain ⟨rfl, rfl⟩ := hcd
      have htail : containsSub cs (str ("*/")) = false :=
        (containsSub_cons_false (containsSub_cons_false h).1).1
      simp only [goBlockF]
      simp [ih htail]
  | case6 c d cs hcd ih =>
      have htail : containsSub (d :: cs) (str ("*/")) = false :=
        (containsSub_cons_false h).1
      simp only [goBlockF, if_neg hcd]
      rw [ih htail]
  | case7 c d cs buf hcd ih =>
      obtain ⟨rfl, rfl⟩ := hcd
      exfalso
      have hpref := (containsSub_cons_false h).2
      simp [str, prefMatch] at hpref
  | case8 c d cs buf hcd ih =>
      have htail : containsSub (d :: cs) (str ("*/")) = false :=
        (containsSub_cons_false h).1
      simp only [goBlockF, if_neg hcd]
      rw [ih htail]
      simp

/-- C2 amended: an unterminated block comment is NOT removed.  If `*/`
occurs nowhere in the input (in particular after any `/*`), the
block-comment pass leaves the input unchanged — the opener and everything
after it are preserved — and comment stripping reduces to the line-comment
pass alone. -/
theorem remove_comments_no_closer (s : List Char)
    (h : containsSub s (str ("*/")) = false) :
    goBlock s = s ∧ _remove_comments s = goLine s := by
  have hb : goBlock s = s := goBlockF_no_closer s none h
  exact ⟨hb, by unfold _remove_comments; rw [show goBlock s = s from hb]⟩

/-- Witness: the unterminated opener of `x/*y` is preserved. -/
theorem remove_comments_no_closer_witness :
    goBlock (str ("x/*y")) = str ("x/*y") :=
  (remove_comments_no_closer _ (by decide)).1

/-! ### C3: characterization of the PBE iteration-count rule -/

/-- A whitespace character is never an ASCII digit. -/
theorem isPyWs_not_digit {c : Char} (h : isPyWs c = true) :
    isAsciiDigit c = false := by
  simp only [isPyWs, Bool.or_eq_true, List.contains, List.elem_iff,
    Bool.and_eq_true, decide_eq_true_eq] at h
  rcases h with hc | ⟨h1, h2⟩
  · simp only [pyWsChars, List.mem_cons, List.not_mem_nil, or_false] at hc
    rcases hc with rfl | rfl | rfl | rfl | rfl | rfl | rfl | rfl | rfl | rfl |
      rfl | rfl | rfl | rfl | rfl | rfl | rfl | rfl
    all_goals decide
  · have h9 : ¬ (c ≤ '9') := not_le.mpr (lt_of_lt_of_le (by decide) h1)
    simp [isAsciiDigit, h9]

/-- A digit character is never whitespace. -/
theorem isAsciiDigit_not_ws {c : Char} (h : isAsciiDigit c = true) :
    isPyWs c = false := by
  cases hws : isPyWs c
  · rfl
  · exact absurd h (by simp [isPyWs_not_digit hws])

/-- `prefMatch` is exactly the prefix relation. -/
theorem prefMatch_iff (p s : List Char) :
    prefMatch p s = true ↔ ∃ v, s = p ++ v := by
  induction p generalizing s with
  | nil => simp [prefMatch]
  | cons a ps ih =>
      cases s with
      | nil =>
          simp only [prefMatch, List.cons_append]
          constructor
          · intro h; exact absurd h (by decide)
          · rintro ⟨v, hv⟩; exact absurd hv (by simp)
      | cons b bs =>
          simp only [prefMatch, Bool.and_eq_true, beq_iff_eq, ih,
            List.cons_append]
          constructor
          · rintro ⟨rfl, v, rfl⟩; exact ⟨v, rfl⟩
          · rintro ⟨v, hv⟩
            injection hv with h1 h2
            exact ⟨h1.symm, v, h2⟩

/-- The comma-and-count tail `,\s*[1-9]\d{0,2}\s*[,)]` of the PBE rule
matches exactly the texts that decompose into a comma, whitespace, a full
1–3-digit token with nonzero leading digit, whitespace, and a comma or
closing parenthesis. -/
theorem pbeNumTail_iff (t : List Char) :
    pbeNumTail t = true ↔
      ∃ (w1 d w2 : List Char) (c : Char) (v : List Char),
        t = ',' :: (w1 ++ (d ++ (w2 ++ c :: v))) ∧
        (∀ x ∈ w1, isPyWs x = true) ∧
        d ≠ [] ∧ d.length ≤ 3 ∧ (∀ x ∈ d, isAsciiDigit x = true) ∧
        (∀ x ∈ d.head?, '1' ≤ x ∧ x ≤ '9') ∧
        (∀ x ∈ w2, isPyWs x = true) ∧
        (c = ',' ∨ c = ')') := by
  constructor
  · intro h
    rw [pbeNumTail.eq_def] at h
    split at h
    case h_2 => exact absurd h (by decide)
    case h_1 t xs =>
      simp only [Bool.and_eq_true] at h
      obtain ⟨h1, h2⟩ := h
      cases hds : (xs.dropWhile isPyWs).takeWhile isAsciiDigit with
      | nil => rw [hds] at h1; exact absurd h1 (by decide)
      | cons hd tl =>
        rw [hds] at h1
        simp only [Bool.and_eq_true, decide_eq_true_eq] at h1
        obtain ⟨⟨hhd1, hhd9⟩, hlen⟩ := h1
        cases hr3 : ((xs.dropWhile isPyWs).dropWhile isAsciiDigit).dropWhile isPyWs with
        | nil => rw [hr3] at h2; exact absurd h2 (by decide)
        | cons c3 v3 =>
          rw [hr3] at h2
          have hc3 : c3 = ',' ∨ c3 = ')' := by
            by_cases h31 : c3 = ')'
            · exact Or.inr h31
            · by_cases h32 : c3 = ','
              · exact Or.inl h32
              · exfalso
                split at h2
                · rename_i heq; injection heq with heq1 _; exact h31 heq1
                · rename_i heq; injection heq with heq1 _; exact h32 heq1
                · exact absurd h2 (by decide)
          refine ⟨xs.takeWhile isPyWs, hd :: tl,
            ((xs.dropWhile isPyWs).dropWhile isAsciiDigit).takeWhile isPyWs,
            c3, v3, ?_, mem_takeWhile_sat _ _, by simp, by simpa using hlen,
            ?_, ?_, mem_takeWhile_sat _ _, hc3⟩
          · have e1 : xs = xs.takeWhile isPyWs ++ xs.dropWhile isPyWs :=
              (List.takeWhile_append_dropWhile _ _).symm
            have e2 : xs.dropWhile isPyWs =
                ((xs.dropWhile isPyWs).takeWhile isAsciiDigit) ++
                ((xs.dropWhile isPyWs).dropWhile isAsciiDigit) :=
              (List.takeWhile_append_dropWhile _ _).symm
            have e3 : (xs.dropWhile isPyWs).dropWhile isAsciiDigit =
                (((xs.dropWhile isPyWs).dropWhile isAsciiDigit).takeWhile isPyWs) ++
                (((xs.dropWhile isPyWs).dropWhile isAsciiDigit).dropWhile isPyWs) :=
              (List.takeWhile_append_dropWhile _ _).symm
            rw [hds] at e2
            rw [hr3] at e3
            rw [e3] at e2
            rw [e2] at e1
            exact congrArg (List.cons ',') e1
          · intro x hx
            have := mem_takeWhile_sat isAsciiDigit (xs.dropWhile isPyWs)
            rw [hds] at this
            exact this x hx
          · intro x hx
            rw [List.head?_cons, Option.mem_def, Option.some.injEq] at hx
            exact hx ▸ ⟨hhd1, hhd9⟩
  · rintro ⟨w1, d, w2, c, v, rfl, hw1, hdne, hdlen, hdig, hhead, hw2, hc⟩
    obtain ⟨hd, d', rfl⟩ : ∃ hd d', d = hd :: d' := by
      cases d with
      | nil => exact absurd rfl hdne
      | cons a b => exact ⟨a, b, rfl⟩
    have hhd := hhead hd rfl
    have hhddig : isAsciiDigit hd = true := hdig hd (by simp)
    have hwsfirst : ∀ x ∈ (hd :: (d' ++ (w2 ++ c :: v))).head?, isPyWs x = false := by
      intro x hx
      simp only [List.head?_cons, Option.mem_def, Option.some.injEq] at hx
      rw [← hx]
      exact isAsciiDigit_not_ws hhddig
    have e1 : (w1 ++ ((hd :: d') ++ (w2 ++ c :: v))).dropWhile isPyWs =
        (hd :: d') ++ (w2 ++ c :: v) := by
      rw [dropWhile_all_append isPyWs w1 _ hw1]
      exact dropWhile_head_false _ _ (by simpa using hwsfirst)
    have hafter : ∀ x ∈ (w2 ++ c :: v).head?, isAsciiDigit x = false := by
      intro x hx
      cases w2 with
      | nil =>
          simp only [List.nil_append, List.head?_cons, Option.mem_def,
            Option.some.injEq] at hx
          rcases hc with rfl | rfl <;> rw [← hx] <;> decide
      | cons a w2' =>
          simp only [List.cons_append, List.head?_cons, Option.mem_def,
            Option.some.injEq] at hx
          rw [← hx]
          exact isPyWs_not_digit (hw2 a (by simp))
    have e2 : ((hd :: d') ++ (w2 ++ c :: v)).takeWhile isAsciiDigit = hd :: d' := by
      rw [takeWhile_all_append isAsciiDigit _ _ hdig]
      rw [takeWhile_head_false _ _ hafter, List.append_nil]
    have e3 : ((hd :: d') ++ (w2 ++ c :: v)).dropWhile isAsciiDigit = w2 ++ c :: v := by
      rw [dropWhile_all_append isAsciiDigit _ _ hdig]
      exact dropWhile_head_false _ _ hafter
    have hcws : ∀ x ∈ (c :: v).head?, isPyWs x = false := by
      intro x hx
      simp only [List.head?_cons, Option.mem_def, Option.some.injEq] at hx
      rcases hc with rfl | rfl <;> rw [← hx] <;> decide
    have e4 : (w2 ++ c :: v).dropWhile isPyWs = c :: v := by
      rw [dropWhile_all_append isPyWs w2 _ hw2]
      exact dropWhile_head_false _ _ hcws
    simp only [pbeNumTail]
    rw [e1, e2, e3, e4]
    simp only [Bool.and_eq_true, decide_eq_true_eq]
    refine ⟨⟨⟨hhd.1, hhd.2⟩, by simpa using hdlen⟩, ?_⟩
    rcases hc with rfl | rfl <;> rfl

/-- The `[^)]*`-search of the PBE rule: the inner loop succeeds iff some
split into a run of non-`)` characters followed by a matching
comma-and-count tail exists. -/
theorem pbeInner_iff (t : List Char) :
    pbeInner t = true ↔
      ∃ g rest, t = g ++ rest ∧ (∀ x ∈ g, x ≠ ')') ∧ pbeNumTail rest = true := by
  induction t with
  | nil =>
      simp only [pbeInner]
      constructor
      · intro h; exact absurd h (by decide)
      · rintro ⟨g, rest, hgr, -, htail⟩
        obtain ⟨rfl, rfl⟩ := List.append_eq_nil.mp hgr.symm
        exact absurd htail (by decide)
  | cons c cs ih =>
      by_cases hc : c = ')'
      · subst hc
        have hpbe : pbeNumTail (')' :: cs) = false := rfl
        have hred : pbeInner (')' :: cs) = false := by
          simp [pbeInner, hpbe]
        constructor
        · intro h
          rw [hred] at h
          exact absurd h (by decide)
        · rintro ⟨g, rest, hgr, hg, htail⟩
          exfalso
          cases g with
          | nil =>
              rw [List.nil_append] at hgr
              rw [← hgr, hpbe] at htail
              exact absurd htail (by decide)
          | cons a g' =>
              rw [List.cons_append] at hgr
              injection hgr with h1 _
              exact hg a (by simp) h1.symm
      · have hred : pbeInner (c :: cs) = (pbeNumTail (c :: cs) || pbeInner cs) := by
          simp [pbeInner, hc]
        rw [hred, Bool.or_eq_true, ih]
        constructor
        · rintro (h | ⟨g, rest, rfl, hg, htail⟩)
          · exact ⟨[], c :: cs, rfl, by simp, h⟩
          · refine ⟨c :: g, rest, rfl, ?_, htail⟩
            intro x hx
            rcases List.mem_cons.mp hx with rfl | hx
            · exact hc
            · exact hg x hx
        · rintro ⟨g, rest, hgr, hg, htail⟩
          cases g with
          | nil =>
              rw [List.nil_append] at hgr
              rw [← hgr] at htail
              exact Or.inl htail
          | cons a g' =>
              rw [List.cons_append] at hgr
              injection hgr with h1 h2
              subst h1
              exact Or.inr ⟨g', rest, h2,
                fun x hx => hg x (List.mem_cons_of_mem _ hx), htail⟩

/-- Full characterization of the PBE matcher at a fixed position. -/
theorem matchPbeAt_iff (s : List Char) :
    matchPbeAt s = true ↔
      ∃ w rest, s = str ("PBEKeySpec") ++ w ++ '(' :: rest ∧
        (∀ x ∈ w, isPyWs x = true) ∧ pbeInner rest = true := by
  constructor
  · intro h
    rw [matchPbeAt.eq_def] at h
    split at h
    case h_1 => exact absurd h (by decide)
    case h_2 s1 heq =>
      rw [litP] at heq
      by_cases hpre : prefMatch (str ("PBEKeySpec")) s = true
      · rw [if_pos hpre] at heq
        injection heq with heq1
        obtain ⟨v, rfl⟩ := (prefMatch_iff _ _).mp hpre
        rw [List.drop_left] at heq1
        subst heq1
        split at h
        · rename_i r heq2
          have hv : v = v.takeWhile isPyWs ++ ('(' :: r) := by
            conv_lhs => rw [← List.takeWhile_append_dropWhile isPyWs v]
            rw [heq2]
          refine ⟨v.takeWhile isPyWs, r, ?_, mem_takeWhile_sat _ _, h⟩
          conv_lhs => rw [hv]
          simp [List.append_assoc]
        · exact absurd h (by decide)
      · rw [if_neg hpre] at heq
        exact absurd heq (by simp)
  · rintro ⟨w, rest, rfl, hw, hinner⟩
    rw [matchPbeAt.eq_def]
    have hassoc : str ("PBEKeySpec") ++ w ++ '(' :: rest =
        str ("PBEKeySpec") ++ (w ++ '(' :: rest) := by
      simp [List.append_assoc]
    rw [hassoc, litP, if_pos ((prefMatch_iff _ _).mpr ⟨_, rfl⟩), List.drop_left]
    have hdrop : (w ++ '(' :: rest).dropWhile isPyWs = '(' :: rest := by
      rw [dropWhile_all_append isPyWs w _ hw]
      refine dropWhile_head_false _ _ ?_
      intro x hx
      simp only [List.head?_cons, Option.mem_def, Option.some.injEq] at hx
      rw [← hx]
      decide
    show (match List.dropWhile isPyWs (w ++ '(' :: rest) with
          | '(' :: r => pbeInner r
          | _ => false) = true
    rw [hdrop]
    exact hinner

/-- C3 amended: `low_pbe_iterations` triggers exactly on the inputs
described by `LowPbeSpec`: an occurrence of `PBEKeySpec`, optional
whitespace, `(`, a run of non-`)` characters, a comma, optional
whitespace, a 1–3-digit token with nonzero leading digit, optional
whitespace, and then a comma or `)`.  In particular a sub-1000 iteration
count in the third slot triggers it, but so does a 1–3-digit token in any
later slot before the first `)`, such as a key length of 128 with an
iteration count of 1000 — the rule is not tied to the iteration-count
slot. -/
theorem low_pbe_iterations_iff (s : List Char) :
    low_pbe_iterations s = true ↔ LowPbeSpec s := by
  unfold low_pbe_iterations LowPbeSpec
  rw [searchB_iff]
  constructor
  · rintro ⟨u, v, rfl, hm⟩
    obtain ⟨w, rest, rfl, hw, hinner⟩ := (matchPbeAt_iff _).mp hm
    obtain ⟨g, rest2, rfl, hg, htail⟩ := (pbeInner_iff _).mp hinner
    obtain ⟨w1, d, w2, c, v', heq, hw1, hdne, hdlen, hdig, hhead, hw2, hc⟩ :=
      (pbeNumTail_iff _).mp htail
    subst heq
    refine ⟨u, w, g, w1, d, w2, c, v', ?_, hw, hg, hw1, hdne, hdlen, hdig,
      hhead, hw2, hc⟩
    simp [List.append_assoc]
  · rintro ⟨u, w, g, w1, d, w2, c, v', rfl, hw, hg, hw1, hdne, hdlen, hdig,
      hhead, hw2, hc⟩
    refine ⟨u, str ("PBEKeySpec") ++ w ++
      '(' :: (g ++ ',' :: (w1 ++ (d ++ (w2 ++ c :: v')))), ?_, ?_⟩
    · simp [List.append_assoc]
    · refine (matchPbeAt_iff _).mpr ⟨w,
        g ++ ',' :: (w1 ++ (d ++ (w2 ++ c :: v'))), rfl, hw, ?_⟩
      refine (pbeInner_iff _).mpr ⟨g,
        ',' :: (w1 ++ (d ++ (w2 ++ c :: v'))), rfl, hg, ?_⟩
      exact (pbeNumTail_iff _).mpr
        ⟨w1, d, w2, c, v', rfl, hw1, hdne, hdlen, hdig, hhead, hw2, hc⟩

/-- C3 counterexample: a `PBEKeySpec` construction whose iteration count
is 1000 (not below) still triggers the rule because of the 3-digit
key-length token `128`; the same call without the key-length argument
does not trigger it. -/
theorem low_pbe_iterations_keylength_counterexample :
    low_pbe_iterations (str ("new PBEKeySpec(password, salt, 1000, 128)")) = true ∧
    low_pbe_iterations (str ("new PBEKeySpec(password, salt, 1000)")) = false := by
  constructor <;> decide

/-! ### C10: crypto-keyword extraction -/

/-- C10: a vocabulary keyword is reported iff its upper-cased form is a
substring of the upper-cased input (case-insensitive substring
containment, not whole-word matching); the result never repeats a
keyword; and consequently an input with no cryptographic content can
still report keywords: `description` yields exactly `DES`, and any input
containing `DESede` also reports `DES`. -/
theorem crypto_keywords_substring (code k : List Char)
    (hk : k ∈ _CRYPTO_KEYWORDS) :
    (k ∈ _extract_crypto_keywords code ↔
      containsSub (code.map pyUpper) (k.map pyUpper) = true) ∧
    (_extract_crypto_keywords code).Nodup ∧
    _extract_crypto_keywords (str ("description")) = [str ("DES")] ∧
    (str ("DES")) ∈ _extract_crypto_keywords (str ("uses DESede here")) := by
  refine ⟨?_, ?_, by decide, by decide⟩
  · simp [_extract_crypto_keywords, List.mem_filter, hk]
  · exact List.Nodup.filter _ (by decide)

/-- Witness: the `DES` keyword on the input `description`. -/
theorem crypto_keywords_substring_witness :
    (str ("DES")) ∈ _extract_crypto_keywords (str ("description")) ↔
      containsSub ((str ("description")).map pyUpper)
        ((str ("DES")).map pyUpper) = true :=
  (crypto_keywords_substring (str ("description")) (str ("DES")) (by decide)).1

/-! ### C9: the hardcoded-key scenario -/

/-- C9 counterexample: an input that CONTAINS the snippet
`new SecretKeySpec(new byte[] {0x01,0x02}, "AES")` whose extracted
`hardcoded_secrets` list does NOT contain the byte-array literal
`new byte[] {0x01,0x02}` as an element: the preceding unterminated
`new byte[] {` makes the non-overlapping byte-array scan report one
longer match that swallows the literal. -/
theorem hardcoded_secrets_membership_counterexample :
    containsSub
        (str ("new byte[] \x7bA new SecretKeySpec(new byte[] \x7b0x01,0x02\x7d, \"AES\")"))
        (str ("new SecretKeySpec(new byte[] \x7b0x01,0x02\x7d, \"AES\")")) = true ∧
    (str ("new byte[] \x7b0x01,0x02\x7d")) ∉
      (extract_features
        (str ("new byte[] \x7bA new SecretKeySpec(new byte[] \x7b0x01,0x02\x7d, \"AES\")"))).hardcoded_secrets := by
  constructor <;> decide

/-- The hardcoded-key rule matcher succeeds at the start of any text
beginning with the (lowercased) byte-array key construction. -/
theorem matchHardcodedKeyAt_prefix (t : List Char) :
    matchHardcodedKeyAt (str ("new secretkeyspec(new byte[] \x7b") ++ t) = true := rfl

/-- C9 amended: every input containing the snippet
`new SecretKeySpec(new byte[] {0x01,0x02}, "AES")` is classified
"insecure" with `hardcoded_key` among the triggered rules; and on the
snippet itself, `hardcoded_secrets` contains the byte-array literal
`new byte[] {0x01,0x02}` as an element (for general containing inputs an
earlier unterminated `new byte[] {` may swallow the literal into a longer
reported match — see the counterexample). -/
theorem hardcoded_key_snippet_amended (pre post : List Char) :
    predict (pre ++ str ("new SecretKeySpec(new byte[] \x7b0x01,0x02\x7d, \"AES\")") ++ post)
        = ("insecure") ∧
    ("hardcoded_key" : String) ∈
      (predict_detailed
        (pre ++ str ("new SecretKeySpec(new byte[] \x7b0x01,0x02\x7d, \"AES\")") ++ post)).triggered_rules ∧
    (str ("new byte[] \x7b0x01,0x02\x7d")) ∈
      (extract_features
        (str ("new SecretKeySpec(new byte[] \x7b0x01,0x02\x7d, \"AES\")"))).hardcoded_secrets := by
  have hk : hardcoded_key
      (pre ++ str ("new SecretKeySpec(new byte[] \x7b0x01,0x02\x7d, \"AES\")") ++ post) = true := by
    unfold hardcoded_key
    rw [List.append_assoc, List.map_append]
    apply searchB_append_left
    rw [List.map_append]
    apply searchB_head
    have hcore : (str ("new SecretKeySpec(new byte[] \x7b0x01,0x02\x7d, \"AES\")")).map pyLower =
        str ("new secretkeyspec(new byte[] \x7b") ++ str ("0x01,0x02\x7d, \"aes\")") := by
      decide
    rw [hcore, List.append_assoc]
    exact matchHardcodedKeyAt_prefix _
  have hmem : (("hardcoded_key" : String), hardcoded_key) ∈ _RULES := by
    simp [_RULES]
  refine ⟨?_, ?_, by decide⟩
  · exact (predictGo_insecure_iff _RULES _).mpr
      ⟨(("hardcoded_key" : String), hardcoded_key), hmem, hk⟩
  · simp only [predict_detailed, List.mem_map]
    exact ⟨(("hardcoded_key" : String), hardcoded_key),
      List.mem_filter.mpr ⟨hmem, hk⟩, rfl⟩

/-! ### C7: idempotence of whitespace normalization -/

/-- Tab replacement leaves no tab behind. -/
theorem replaceTabs_no_tab (s : List Char) : ∀ c ∈ replaceTabs s, c ≠ '\t' := by
  intro c hc
  obtain ⟨a, -, ha⟩ := List.mem_map.mp hc
  rw [← ha]
  by_cases h : a = '\t' <;> simp [h]

/-- Tab replacement is the identity on tab-free text. -/
theorem replaceTabs_id (s : List Char) (h : ∀ c ∈ s, c ≠ '\t') :
    replaceTabs s = s := by
  induction s with
  | nil => rfl
  | cons c cs ih =>
      have hc : c ≠ '\t' := h c (by simp)
      simp only [replaceTabs, List.map_cons, if_neg hc]
      have := ih (fun x hx => h x (List.mem_cons_of_mem c hx))
      simp only [replaceTabs] at this
      rw [this]

/-- Space collapsing only emits characters of its input. -/
theorem collapseF_subset (s : List Char) : ∀ b, ∀ c ∈ collapseF b s, c ∈ s := by
  induction s with
  | nil => intro b c hc; simp [collapseF] at hc
  | cons a cs ih =>
      intro b c hc
      by_cases ha : a = ' '
      · subst ha
        cases b with
        | true =>
            simp only [collapseF, if_pos rfl] at hc
            exact List.mem_cons_of_mem _ (ih true c hc)
        | false =>
            simp only [collapseF, if_pos rfl] at hc
            rcases List.mem_cons.mp hc with rfl | hc
            · exact List.mem_cons_self _ _
            · exact List.mem_cons_of_mem _ (ih true c hc)
      · simp only [collapseF, if_neg ha] at hc
        rcases List.mem_cons.mp hc with rfl | hc
        · exact List.mem_cons_self _ _
        · exact List.mem_cons_of_mem _ (ih false c hc)

/-- The output of space collapsing has no two adjacent spaces, and in the
in-run state it never starts with a space. -/
theorem collapseF_props (s : List Char) :
    noTwoSpaces (collapseF false s) ∧ noTwoSpaces (collapseF true s) ∧
    (∀ c ∈ (collapseF true s).head?, c ≠ ' ') := by
  induction s with
  | nil => exact ⟨List.chain'_nil, List.chain'_nil, by simp [collapseF]⟩
  | cons a cs ih =>
      obtain ⟨ihf, iht, ihh⟩ := ih
      by_cases ha : a = ' '
      · subst ha
        refine ⟨?_, iht, ihh⟩
        have hred : collapseF false (' ' :: cs) = ' ' :: collapseF true cs := by
          simp [collapseF]
        rw [hred, noTwoSpaces, List.chain'_cons']
        refine ⟨?_, iht⟩
        intro y hy
        have := ihh y hy
        tauto
      · have hfalse : collapseF false (a :: cs) = a :: collapseF false cs := by
          simp [collapseF, ha]
        have htrue : collapseF true (a :: cs) = a :: collapseF false cs := by
          simp [collapseF, ha]
        have hch : noTwoSpaces (a :: collapseF false cs) := by
          rw [noTwoSpaces, List.chain'_cons']
          exact ⟨fun y _ => by tauto, ihf⟩
        refine ⟨by rw [hfalse]; exact hch, by rw [htrue]; exact hch, ?_⟩
        rw [htrue]
        intro c hc
        simp only [List.head?_cons, Option.mem_def, Option.some.injEq] at hc
        rw [← hc]
        exact ha

/-- Space collapsing is the identity on text with no two adjacent spaces
(and in the in-run state, additionally not starting with a space). -/
theorem collapseF_id (s : List Char) (h : noTwoSpaces s) :
    collapseF false s = s ∧
    ((∀ c ∈ s.head?, c ≠ ' ') → collapseF true s = s) := by
  induction s with
  | nil => exact ⟨rfl, fun _ => rfl⟩
  | cons a cs ih =>
      rw [noTwoSpaces, List.chain'_cons'] at h
      obtain ⟨hR, hcs⟩ := h
      obtain ⟨ihf, iht⟩ := ih hcs
      by_cases ha : a = ' '
      · subst ha
        constructor
        · have hred : collapseF false (' ' :: cs) = ' ' :: collapseF true cs := by
            simp [collapseF]
          have hcs' : collapseF true cs = cs := by
            refine iht ?_
            intro y hy
            have := hR y hy
            tauto
          rw [hred, hcs']
        · intro hhead
          exact absurd rfl (hhead ' ' (by simp))
      · have hstep : ∀ b, collapseF b (a :: cs) = a :: collapseF false cs := by
          intro b; cases b <;> simp [collapseF, ha]
        exact ⟨by rw [hstep, ihf], fun _ => by rw [hstep, ihf]⟩

/-- The head of a `dropWhile` result fails the predicate. -/
theorem dropWhile_head_prop (p : Char → Bool) (l : List Char) :
    ∀ x ∈ (l.dropWhile p).head?, p x = false := by
  induction l with
  | nil => simp
  | cons c cs ih =>
      by_cases hc : p c
      · simpa [List.dropWhile_cons, hc] using ih
      · intro x hx
        rw [List.dropWhile_cons, if_neg hc] at hx
        simp only [List.head?_cons, Option.mem_def, Option.some.injEq] at hx
        rw [← hx]
        simpa using hc

/-- `splitLines` on a non-boundary head prepends it to the first line. -/
theorem splitLines_nonbreak (c : Char) (t : List Char)
    (h : isLineBreakCh c = false) :
    splitLines (c :: t) = consHead c (splitLines t) := by
  have hcr : c ≠ '\r' := by
    intro hh
    rw [hh] at h
    exact absurd h (by decide)
  cases t with
  | nil => simp [splitLines, consHead, h]
  | cons d cs => simp [splitLines, h, hcr]

/-- `splitLines` at a newline starts a new line. -/
theorem splitLines_newline (t : List Char) :
    splitLines ('\n' :: t) = [] :: splitLines t := by
  have h1 : ('\n' : Char) ≠ '\r' := by decide
  have h2 : isLineBreakCh '\n' = true := by decide
  cases t with
  | nil => simp [splitLines, h2]
  | cons d cs => simp [splitLines, h1, h2]

/-- A non-empty boundary-free text is a single line. -/
theorem splitLines_single (l : List Char) (hne : l ≠ [])
    (hfree : ∀ c ∈ l, isLineBreakCh c = false) : splitLines l = [l] := by
  induction l with
  | nil => exact absurd rfl hne
  | cons c t ih =>
      rw [splitLines_nonbreak c t (hfree c (by simp))]
      cases t with
      | nil => rfl
      | cons d cs =>
          rw [ih (by simp) (fun x hx => hfree x (List.mem_cons_of_mem c hx))]
          rfl

/-- Splitting a boundary-free line glued by a newline onto a rest. -/
theorem splitLines_append_newline (l t : List Char)
    (hfree : ∀ c ∈ l, isLineBreakCh c = false) :
    splitLines (l ++ '\n' :: t) = l :: splitLines t := by
  induction l with
  | nil => simpa using splitLines_newline t
  | cons c l' ih =>
      rw [List.cons_append, splitLines_nonbreak c _ (hfree c (by simp)),
        ih (fun x hx => hfree x (List.mem_cons_of_mem c hx))]
      rfl

/-- Every line produced by `splitLines` is boundary-free and an infix of
the input; the first line is a prefix of the input. -/
theorem splitLines_elems (t : List Char) :
    (∀ l ∈ splitLines t, (∀ c ∈ l, isLineBreakCh c = false) ∧ l <:+: t) ∧
    (∀ l0 ls, splitLines t = l0 :: ls → l0 <+: t) := by
  induction t using splitLines.induct with
  | case1 =>
      exact ⟨by simp [splitLines], fun l0 ls h => by simp [splitLines] at h⟩
  | case2 c hb =>
      constructor
      · intro l hl
        simp only [splitLines, if_pos hb, List.mem_singleton] at hl
        subst hl
        exact ⟨by simp, by simp⟩
      · intro l0 ls h
        simp only [splitLines, if_pos hb, List.cons.injEq] at h
        rw [← h.1]
        simp
  | case3 c hb =>
      constructor
      · intro l hl
        simp only [splitLines, if_neg hb, List.mem_singleton] at hl
        subst hl
        refine ⟨?_, List.infix_refl _⟩
        intro x hx
        rw [List.mem_singleton.mp hx]
        simpa using hb
      · intro l0 ls h
        simp only [splitLines, if_neg hb, List.cons.injEq] at h
        rw [← h.1]
  | case4 c d cs hcd ih =>
      obtain ⟨rfl, rfl⟩ := hcd
      have hred : splitLines ('\r' :: '\n' :: cs) = [] :: splitLines cs := by
        simp [splitLines]
      obtain ⟨ihm, ihp⟩ := ih
      rw [hred]
      have hsfx : cs <:+ '\r' :: '\n' :: cs :=
        (List.suffix_cons '\n' cs).trans (List.suffix_cons '\r' _)
      constructor
      · intro l hl
        rcases List.mem_cons.mp hl with rfl | hl
        · exact ⟨by simp, by simp⟩
        · obtain ⟨hfree, hinf⟩ := ihm l hl
          exact ⟨hfree, hinf.trans hsfx.isInfix⟩
      · intro l0 ls h
        injection h with h1 _
        rw [← h1]
        simp
  | case5 c d cs hcd hb ih =>
      have hred : splitLines (c :: d :: cs) = [] :: splitLines (d :: cs) := by
        simp [splitLines, hcd, hb]
      obtain ⟨ihm, ihp⟩ := ih
      rw [hred]
      have hsfx : (d :: cs) <:+ c :: d :: cs := List.suffix_cons c _
      constructor
      · intro l hl
        rcases List.mem_cons.mp hl with rfl | hl
        · exact ⟨by simp, by simp⟩
        · obtain ⟨hfree, hinf⟩ := ihm l hl
          exact ⟨hfree, hinf.trans hsfx.isInfix⟩
      · intro l0 ls h
        injection h with h1 _
        rw [← h1]
        simp
  | case6 c d cs hcd hb ih =>
      have hbf : isLineBreakCh c = false := by simpa using hb
      have hred : splitLines (c :: d :: cs) = consHead c (splitLines (d :: cs)) := by
        simp [splitLines, hcd, hb]
      obtain ⟨ihm, ihp⟩ := ih
      rw [hred]
      rcases hsp : splitLines (d :: cs) with _ | ⟨l0, ls⟩
      · constructor
        · intro l hl
          simp only [consHead, List.mem_singleton] at hl
          subst hl
          refine ⟨?_, (show [c] <+: c :: d :: cs from ⟨d :: cs, rfl⟩).isInfix⟩
          intro x hx
          rw [List.mem_singleton.mp hx]
          exact hbf
        · intro l0 ls h
          simp only [consHead, List.cons.injEq] at h
          rw [← h.1]
          exact ⟨d :: cs, rfl⟩
      · have hl0pre : l0 <+: d :: cs := ihp l0 ls hsp
        have hl0free : ∀ x ∈ l0, isLineBreakCh x = false :=
          (ihm l0 (by rw [hsp]; simp)).1
        constructor
        · intro l hl
          simp only [consHead, List.mem_cons] at hl
          rcases hl with rfl | hl
          · refine ⟨?_, ?_⟩
            · intro x hx
              rcases List.mem_cons.mp hx with rfl | hx
              · exact hbf
              · exact hl0free x hx
            · exact (List.cons_prefix_cons.mpr ⟨rfl, hl0pre⟩).isInfix
          · obtain ⟨hfree, hinf⟩ := ihm l (by rw [hsp]; exact List.mem_cons_of_mem _ hl)
            exact ⟨hfree, hinf.trans (List.suffix_cons c _).isInfix⟩
        · intro l1 ls1 h
          simp only [consHead, List.cons.injEq] at h
          rw [← h.1]
          exact List.cons_prefix_cons.mpr ⟨rfl, hl0pre⟩

/-- The stripped line is a contiguous infix of the original line. -/
theorem stripLine_infix (l : List Char) : stripLine l <:+: l := by
  have hA : l.dropWhile isPyWs <:+ l := List.dropWhile_suffix _
  obtain ⟨u, hu⟩ :=
    List.dropWhile_suffix (l := (l.dropWhile isPyWs).reverse) (p := isPyWs)
  have hpre : stripLine l <+: l.dropWhile isPyWs := by
    refine ⟨u.reverse, ?_⟩
    rw [stripLine, ← List.reverse_append, hu, List.reverse_reverse]
  exact hpre.isInfix.trans hA.isInfix

/-- The stripped line does not start with whitespace. -/
theorem stripLine_head (l : List Char) :
    ∀ x ∈ (stripLine l).head?, isPyWs x = false := by
  intro x hx
  rw [stripLine, List.head?_reverse] at hx
  cases hB : ((l.dropWhile isPyWs).reverse).dropWhile isPyWs with
  | nil => rw [hB] at hx; simp at hx
  | cons b bs =>
      have hBne : ((l.dropWhile isPyWs).reverse).dropWhile isPyWs ≠ [] := by
        rw [hB]; simp
      obtain ⟨u, hu⟩ :=
        List.dropWhile_suffix (l := (l.dropWhile isPyWs).reverse) (p := isPyWs)
      have hgl : ((l.dropWhile isPyWs).reverse).getLast? = some x := by
        rw [← hu, List.getLast?_append_of_ne_nil u hBne]
        exact hx
      rw [List.getLast?_reverse] at hgl
      exact dropWhile_head_prop _ _ x hgl

/-- The stripped line does not end with whitespace. -/
theorem stripLine_getLast (l : List Char) :
    ∀ x ∈ (stripLine l).getLast?, isPyWs x = false := by
  intro x hx
  rw [stripLine, List.getLast?_reverse] at hx
  exact dropWhile_head_prop _ _ x hx

/-- Stripping is the identity when neither end is whitespace. -/
theorem stripLine_id (l : List Char)
    (h1 : ∀ x ∈ l.head?, isPyWs x = false)
    (h2 : ∀ x ∈ l.getLast?, isPyWs x = false) : stripLine l = l := by
  have e1 : l.dropWhile isPyWs = l := dropWhile_head_false _ _ h1
  have e2 : l.reverse.dropWhile isPyWs = l.reverse := by
    refine dropWhile_head_false _ _ ?_
    intro x hx
    rw [List.head?_reverse] at hx
    exact h2 x hx
  rw [stripLine, e1, e2, List.reverse_reverse]

/-- Stripping is idempotent. -/
theorem stripLine_idem (l : List Char) : stripLine (stripLine l) = stripLine l :=
  stripLine_id _ (stripLine_head l) (stripLine_getLast l)

/-- Joining space-clean lines yields space-clean text (the inserted
newlines are never part of a double space). -/
theorem joinLines_chain (L : List (List Char))
    (h : ∀ l ∈ L, noTwoSpaces l) : noTwoSpaces (joinLines L) := by
  induction L with
  | nil => exact List.chain'_nil
  | cons l ls ih =>
      cases ls with
      | nil => exact h l (by simp)
      | cons l2 ls2 =>
          rw [show joinLines (l :: l2 :: ls2) =
            l ++ '\n' :: joinLines (l2 :: ls2) from rfl]
          rw [noTwoSpaces, List.chain'_append]
          refine ⟨h l (by simp), ?_, ?_⟩
          · rw [List.chain'_cons']
            refine ⟨?_, ih (fun x hx => h x (List.mem_cons_of_mem _ hx))⟩
            intro y _
            rintro ⟨h1, -⟩
            exact absurd h1 (by decide)
          · intro x _ y hy
            simp only [List.head?_cons, Option.mem_def, Option.some.injEq] at hy
            rw [← hy]
            rintro ⟨-, h2⟩
            exact absurd h2 (by decide)

/-- Characters of a joined line list come from the lines or are
newlines. -/
theorem joinLines_mem (L : List (List Char)) (c : Char)
    (h : c ∈ joinLines L) : (∃ l ∈ L, c ∈ l) ∨ c = '\n' := by
  induction L with
  | nil => simp [joinLines] at h
  | cons l ls ih =>
      cases ls with
      | nil => exact Or.inl ⟨l, by simp, h⟩
      | cons l2 ls2 =>
          rw [show joinLines (l :: l2 :: ls2) =
            l ++ '\n' :: joinLines (l2 :: ls2) from rfl] at h
          rcases List.mem_append.mp h with h | h
          · exact Or.inl ⟨l, by simp, h⟩
          · rcases List.mem_cons.mp h with rfl | h
            · exact Or.inr rfl
            · rcases ih h with ⟨l3, hl3, hc⟩ | rfl
              · exact Or.inl ⟨l3, List.mem_cons_of_mem _ hl3, hc⟩
              · exact Or.inr rfl

/-- Splitting inverts joining on non-empty boundary-free lines. -/
theorem splitLines_joinLines (L : List (List Char))
    (h : ∀ l ∈ L, l ≠ [] ∧ ∀ c ∈ l, isLineBreakCh c = false) :
    splitLines (joinLines L) = L := by
  induction L with
  | nil => rfl
  | cons l ls ih =>
      cases ls with
      | nil => exact splitLines_single l (h l (by simp)).1 (h l (by simp)).2
      | cons l2 ls2 =>
          rw [show joinLines (l :: l2 :: ls2) =
            l ++ '\n' :: joinLines (l2 :: ls2) from rfl]
          rw [splitLines_append_newline l _ (h l (by simp)).2]
          rw [ih (fun x hx => h x (List.mem_cons_of_mem _ hx))]

/-- Mapping a function that fixes every element is the identity. -/
theorem map_stripLine_id (L : List (List Char))
    (h : ∀ l ∈ L, stripLine l = l) : L.map stripLine = L := by
  induction L with
  | nil => rfl
  | cons l ls ih =>
      rw [List.map_cons, h l (by simp),
        ih (fun x hx => h x (List.mem_cons_of_mem _ hx))]

/-- `_normalize_whitespace` fixes any join of canonical lines (non-empty,
boundary-free, tab-free, space-clean, stripped). -/
theorem normWs_fixed (L : List (List Char))
    (h : ∀ l ∈ L, l ≠ [] ∧ (∀ c ∈ l, isLineBreakCh c = false) ∧
      (∀ c ∈ l, c ≠ '\t') ∧ noTwoSpaces l ∧ stripLine l = l) :
    _normalize_whitespace (joinLines L) = joinLines L := by
  have h1 : replaceTabs (joinLines L) = joinLines L := by
    refine replaceTabs_id _ ?_
    intro c hc
    rcases joinLines_mem L c hc with ⟨l, hl, hcl⟩ | rfl
    · exact (h l hl).2.2.1 c hcl
    · decide
  have h2 : collapseSpaces (joinLines L) = joinLines L :=
    (collapseF_id _ (joinLines_chain L (fun l hl => (h l hl).2.2.2.1))).1
  have h3 : splitLines (joinLines L) = L :=
    splitLines_joinLines L (fun l hl => ⟨(h l hl).1, (h l hl).2.1⟩)
  have h4 : L.map stripLine = L :=
    map_stripLine_id L (fun l hl => (h l hl).2.2.2.2)
  have h5 : L.filter (fun l => !l.isEmpty) = L := by
    rw [List.filter_eq_self]
    intro l hl
    simpa using (h l hl).1
  rw [_normalize_whitespace, h1, h2, h3, h4, h5]

/-- The lines produced by `_normalize_whitespace` are canonical. -/
theorem normWs_lines_canonical (s : List Char) :
    ∀ l ∈ ((splitLines (collapseSpaces (replaceTabs s))).map stripLine).filter
        (fun l => !l.isEmpty),
      l ≠ [] ∧ (∀ c ∈ l, isLineBreakCh c = false) ∧
      (∀ c ∈ l, c ≠ '\t') ∧ noTwoSpaces l ∧ stripLine l = l := by
  intro l hl
  rw [List.mem_filter] at hl
  obtain ⟨hlm, hlne⟩ := hl
  obtain ⟨m, hm, rfl⟩ := List.mem_map.mp hlm
  obtain ⟨hmfree, hminf⟩ :=
    (splitLines_elems (collapseSpaces (replaceTabs s))).1 m hm
  have hstinf : stripLine m <:+: m := stripLine_infix m
  refine ⟨by simpa using hlne, ?_, ?_, ?_, stripLine_idem m⟩
  · intro c hc
    exact hmfree c (hstinf.subset hc)
  · intro c hc
    have hct : c ∈ collapseSpaces (replaceTabs s) :=
      hminf.subset (hstinf.subset hc)
    exact replaceTabs_no_tab s c (collapseF_subset (replaceTabs s) false c hct)
  · have hchain : List.Chain' (fun a b => ¬(a = ' ' ∧ b = ' '))
        (collapseSpaces (replaceTabs s)) := (collapseF_props (replaceTabs s)).1
    have hchm : List.Chain' (fun a b => ¬(a = ' ' ∧ b = ' ')) m :=
      hchain.infix hminf
    exact hchm.infix hstinf

/-- C7: whitespace normalization is idempotent — applying
`_normalize_whitespace` (equivalently, `normalize` with only the
whitespace option enabled) twice yields the same result as applying it
once. -/
theorem normalize_whitespace_idempotent (code : List Char) :
    _normalize_whitespace (_normalize_whitespace code) =
      _normalize_whitespace code ∧
    normalizer.normalize (normalizer.normalize code false true false)
        false true false =
      normalizer.normalize code false true false := by
  have hmain : _normalize_whitespace (_normalize_whitespace code) =
      _normalize_whitespace code := by
    rw [show _normalize_whitespace code =
      joinLines (((splitLines (collapseSpaces (replaceTabs code))).map
        stripLine).filter (fun l => !l.isEmpty)) from rfl]
    exact normWs_fixed _ (normWs_lines_canonical code)
  refine ⟨hmain, ?_⟩
  simpa [normalizer.normalize] using hmain
